import Mathlib

/-!
Shallow embedding of the candidate scoring and selection pipeline of the
smart-crop-video repository (modules `smart_crop/core/scoring.py`,
`smart_crop/core/candidates.py`, `smart_crop/core/grid.py`,
`smart_crop/analysis/scenes.py`, `smart_crop/scene/analysis.py`),
together with proofs of the specification's testable properties.

Python floats are modelled as rationals (`ℚ`), Python ints as `Int`.
Functions that raise `ValueError` are modelled with `Except String`.
Python's stable `sort`/`sorted` is modelled with `List.mergeSort`,
which is also stable.
-/

namespace SmartCrop

/-- Metrics for a single crop position (`scoring.py`, `PositionMetrics`). -/
structure PositionMetrics where
  x : Int
  y : Int
  motion : ℚ
  complexity : ℚ
  edges : ℚ
  saturation : ℚ
deriving DecidableEq, Repr

/-- Min/max values for normalization of metrics (`scoring.py`, `NormalizationBounds`). -/
structure NormalizationBounds where
  motion_min : ℚ
  motion_max : ℚ
  complexity_min : ℚ
  complexity_max : ℚ
  edges_min : ℚ
  edges_max : ℚ
  saturation_min : ℚ
  saturation_max : ℚ
deriving DecidableEq, Repr

/-- Normalize value to the 0-100 range (`scoring.py`, `normalize`):
returns `((value - min_val) / (max_val - min_val)) * 100` when
`max_val - min_val > 0`, else the neutral `50.0`. -/
def normalize (value min_val max_val : ℚ) : ℚ :=
  if max_val - min_val > 0 then ((value - min_val) / (max_val - min_val)) * 100
  else 50

/-- A strategy weight vector (`scoring.py`: the `weights` dict of a strategy). -/
structure Weights where
  motion : ℚ
  complexity : ℚ
  edges : ℚ
  saturation : ℚ
deriving DecidableEq, Repr

/-- The five built-in strategies of `scoring.py` (`STRATEGIES`), as an
association list from name to weight vector, in the source's dict order.
The `description` and `use_case` fields play no algorithmic role and are
not modelled. -/
def STRATEGIES : List (String × Weights) :=
  [("Subject Detection", ⟨0.05, 0.25, 0.40, 0.30⟩),
   ("Motion Priority",   ⟨0.50, 0.15, 0.25, 0.10⟩),
   ("Visual Detail",     ⟨0.05, 0.50, 0.30, 0.15⟩),
   ("Balanced",          ⟨0.25, 0.25, 0.25, 0.25⟩),
   ("Color Focus",       ⟨0.05, 0.20, 0.30, 0.45⟩)]

/-- Python dict membership test `strategy in STRATEGIES`. -/
def knownStrategy (strategy : String) : Bool :=
  STRATEGIES.any (fun p => p.1 = strategy)

/-- Python dict lookup `STRATEGIES[strategy]['weights']` (keys are distinct,
so first-match lookup agrees with dict lookup). -/
def strategyWeights (strategy : String) : Option Weights :=
  (STRATEGIES.find? (fun p => p.1 = strategy)).map (fun p => p.2)

/-- Error message of `score_position`/`get_strategy_info` for an unknown
strategy; `\x27` is the ASCII single-quote character. -/
def unknownStrategyMsg (strategy : String) : String :=
  "Unknown strategy: \x27" ++ strategy ++
    "\x27. Valid strategies are: Subject Detection, Motion Priority, Visual Detail, Balanced, Color Focus"

/-- The weighted-sum body of `score_position` once the weights have been
looked up (`scoring.py` lines 201-215). -/
def scoreWith (metrics : PositionMetrics) (bounds : NormalizationBounds)
    (weights : Weights) : ℚ :=
  normalize metrics.motion bounds.motion_min bounds.motion_max * weights.motion +
  normalize metrics.complexity bounds.complexity_min bounds.complexity_max * weights.complexity +
  normalize metrics.edges bounds.edges_min bounds.edges_max * weights.edges +
  normalize metrics.saturation bounds.saturation_min bounds.saturation_max * weights.saturation

/-- Score a position using a specific strategy (`scoring.py`, `score_position`).
Raises `ValueError` (modelled as `Except.error`) for an unknown strategy. -/
def score_position (metrics : PositionMetrics) (bounds : NormalizationBounds)
    (strategy : String) : Except String ℚ :=
  match strategyWeights strategy with
  | none => .error (unknownStrategyMsg strategy)
  | some w => .ok (scoreWith metrics bounds w)

/-- A crop position with its score and selecting strategy
(`candidates.py`, `ScoredCandidate`). -/
structure ScoredCandidate where
  x : Int
  y : Int
  score : ℚ
  strategy : String
deriving DecidableEq, Repr

/-- Descending-by-score comparison used by the Python `sort(key=score,
reverse=True)` calls; `List.mergeSort` with this relation is stable in
the same way Python's sort is. -/
def scoreDesc (a b : PositionMetrics × ℚ) : Bool :=
  b.2 ≤ a.2

/-- Generate top N candidates using a specific scoring strategy
(`candidates.py`, `generate_strategy_candidates`). -/
def generate_strategy_candidates (positions : List PositionMetrics)
    (bounds : NormalizationBounds) (strategy : String) (top_n : Int) :
    Except String (List ScoredCandidate) :=
  if positions = [] then
    .error ("Cannot generate candidates from empty positions list")
  else if top_n < 1 then
    .error ("top_n must be at least 1, got " ++ toString top_n)
  else
    match strategyWeights strategy with
    | none => .error (unknownStrategyMsg strategy)
    | some w =>
      let scored := positions.map (fun p => (p, scoreWith p bounds w))
      let sorted := scored.mergeSort scoreDesc
      .ok ((sorted.take top_n.toNat).map (fun pc => ⟨pc.1.x, pc.1.y, pc.2, strategy⟩))

/-- The weight vector of the Balanced strategy, used by the spatial pass
(`score_position(pos, bounds, 'Balanced')`). -/
def balancedWeights : Weights := ⟨0.25, 0.25, 0.25, 0.25⟩

/-- Generate spatially diverse candidates, the best position of each of the
five regions under the Balanced strategy (`candidates.py`,
`generate_spatial_candidates`). Empty regions are skipped. -/
def generate_spatial_candidates (positions : List PositionMetrics)
    (bounds : NormalizationBounds) (video_width video_height : Int) :
    Except String (List ScoredCandidate) :=
  if positions = [] then
    .error ("Cannot generate spatial candidates from empty positions list")
  else if video_width ≤ 0 ∨ video_height ≤ 0 then
    .error ("Invalid video dimensions: " ++ toString video_width ++ "x" ++
      toString video_height)
  else
    let cx := video_width / 2
    let cy := video_height / 2
    let regions : List (String × (PositionMetrics → Bool)) :=
      [("Top-Left", fun p => decide (p.x < cx ∧ p.y < cy)),
       ("Top-Right", fun p => decide (p.x ≥ cx ∧ p.y < cy)),
       ("Bottom-Left", fun p => decide (p.x < cx ∧ p.y ≥ cy)),
       ("Bottom-Right", fun p => decide (p.x ≥ cx ∧ p.y ≥ cy)),
       ("Center", fun p => decide (|p.x - cx| < video_width / 4 ∧
                                   |p.y - cy| < video_height / 4))]
    .ok (regions.filterMap (fun r =>
      let scored := (positions.filter r.2).map (fun p => (p, scoreWith p bounds balancedWeights))
      match scored.mergeSort scoreDesc with
      | [] => none
      | best :: _ => some ⟨best.1.x, best.1.y, best.2, "Spatial:" ++ r.1⟩))

/-- The deduplication walk of `deduplicate_candidates` (`candidates.py`
lines 238-257): over the score-sorted list, skip candidates with `x ≤ 0`
or `y ≤ 0`, skip already-seen `(x, y)` keys, and stop as soon as
`max_candidates` entries have been kept (`remaining` counts how many more
may still be kept; the loop appends and then breaks once full, hence the
`[c]` case). -/
def dedupGo (seen : List (Int × Int)) (remaining : Nat) :
    List ScoredCandidate → List ScoredCandidate
  | [] => []
  | c :: cs =>
    if c.x ≤ 0 ∨ c.y ≤ 0 then dedupGo seen remaining cs
    else if (c.x, c.y) ∈ seen then dedupGo seen remaining cs
    else if remaining ≤ 1 then [c]
    else c :: dedupGo ((c.x, c.y) :: seen) (remaining - 1) cs

/-- Descending-by-score comparison on `ScoredCandidate`. -/
def candScoreDesc (a b : ScoredCandidate) : Bool :=
  b.score ≤ a.score

/-- Deduplicate candidates and return the top N by score
(`candidates.py`, `deduplicate_candidates`). The source checks for the
empty list before validating `max_candidates`. -/
def deduplicate_candidates (candidates : List ScoredCandidate)
    (max_candidates : Int) : Except String (List ScoredCandidate) :=
  if candidates = [] then .ok []
  else if max_candidates < 1 then
    .error ("max_candidates must be at least 1, got " ++ toString max_candidates)
  else .ok (dedupGo [] max_candidates.toNat (candidates.mergeSort candScoreDesc))

/-- Generate a diverse set of crop position candidates
(`candidates.py`, `generate_candidates`): top `top_per_strategy` from each
of the five strategies, plus the spatial picks, deduplicated. -/
def generate_candidates (positions : List PositionMetrics)
    (bounds : NormalizationBounds)
    (video_width video_height max_candidates top_per_strategy : Int) :
    Except String (List ScoredCandidate) :=
  if positions = [] then
    .error ("Cannot generate candidates from empty positions list")
  else if video_width ≤ 0 ∨ video_height ≤ 0 then
    .error ("Invalid video dimensions: " ++ toString video_width ++ "x" ++
      toString video_height)
  else if max_candidates < 1 then
    .error ("max_candidates must be at least 1, got " ++ toString max_candidates)
  else if top_per_strategy < 1 then
    .error ("top_per_strategy must be at least 1, got " ++ toString top_per_strategy)
  else do
    let sd ← generate_strategy_candidates positions bounds ("Subject Detection") top_per_strategy
    let mp ← generate_strategy_candidates positions bounds ("Motion Priority") top_per_strategy
    let vd ← generate_strategy_candidates positions bounds ("Visual Detail") top_per_strategy
    let ba ← generate_strategy_candidates positions bounds ("Balanced") top_per_strategy
    let cf ← generate_strategy_candidates positions bounds ("Color Focus") top_per_strategy
    let sp ← generate_spatial_candidates positions bounds video_width video_height
    deduplicate_candidates (sd ++ mp ++ vd ++ ba ++ cf ++ sp) max_candidates

/-- A single position in the analysis grid (`grid.py`, `Position`). -/
structure Position where
  x : Int
  y : Int
deriving DecidableEq, Repr

/-- Generate a uniform grid of positions to analyze (`grid.py`,
`generate_analysis_grid`). The degenerate no-movement case is decided
before the `grid_size` validation, exactly as in the source. -/
def generate_analysis_grid (max_x max_y grid_size : Int) :
    Except String (List Position) :=
  if max_x ≤ 0 ∧ max_y ≤ 0 then .ok [⟨0, 0⟩]
  else if grid_size < 1 then
    .error ("Grid size must be at least 1, got " ++ toString grid_size)
  else
    let x_positions :=
      if grid_size = 1 then [if max_x > 0 then max_x / 2 else 0]
      else if max_x > 0 then
        (List.range grid_size.toNat).map (fun (i : Nat) => max 1 (max_x * (i : Int) / (grid_size - 1)))
      else List.replicate grid_size.toNat 0
    let y_positions :=
      if grid_size = 1 then [if max_y > 0 then max_y / 2 else 0]
      else if max_y > 0 then
        (List.range grid_size.toNat).map (fun (i : Nat) => max 1 (max_y * (i : Int) / (grid_size - 1)))
      else List.replicate grid_size.toNat 0
    .ok (y_positions.flatMap (fun y => x_positions.map (fun x => ⟨x, y⟩)))

/-- A continuous scene or segment in a video (`scenes.py`, `Scene`).
The two thumbnail path fields are carried for fidelity but never used by
the embedded algorithms. -/
structure Scene where
  start_time : ℚ
  end_time : ℚ
  start_frame : Int
  end_frame : Int
  metric_value : ℚ := 0
  first_frame_path : String := ""
  last_frame_path : String := ""
deriving DecidableEq, Repr

/-- Scene duration in seconds (`Scene.duration`). -/
def Scene.duration (s : Scene) : ℚ := s.end_time - s.start_time

/-- Order-preserving removal of exact duplicates
(`create_scenes_from_timestamps` lines 177-183: the `seen` set walk). -/
def dedupTsGo (seen : List (ℚ × Int)) : List (ℚ × Int) → List (ℚ × Int)
  | [] => []
  | t :: ts => if t ∈ seen then dedupTsGo seen ts else t :: dedupTsGo (t :: seen) ts

/-- One `Scene` per consecutive pair of boundary timestamps
(`create_scenes_from_timestamps` lines 189-201). -/
def pairScenes : List (ℚ × Int) → List Scene
  | a :: b :: rest => ⟨a.1, b.1, a.2, b.2, 0, "", ""⟩ :: pairScenes (b :: rest)
  | _ => []

/-- Create `Scene` objects from timestamp boundaries (`scenes.py`,
`create_scenes_from_timestamps`): prepend `(0, 0)`, append
`(video_duration, total_frames)`, drop exact duplicates keeping the first
occurrence, stably sort by timestamp, and pair up consecutive boundaries. -/
def create_scenes_from_timestamps (timestamps : List (ℚ × Int))
    (video_duration : ℚ) (total_frames : Int) : Except String (List Scene) :=
  if video_duration ≤ 0 then
    .error ("video_duration must be > 0, got " ++ toString video_duration)
  else if total_frames ≤ 0 then
    .error ("total_frames must be > 0, got " ++ toString total_frames)
  else
    let all_timestamps := (0, 0) :: timestamps ++ [(video_duration, total_frames)]
    let unique_timestamps := dedupTsGo [] all_timestamps
    .ok (pairScenes (unique_timestamps.mergeSort (fun a b => a.1 ≤ b.1)))

/-- Python `int()` applied to a (here always finite) float: truncation
toward zero. -/
def pyInt (q : ℚ) : Int := if q < 0 then ⌈q⌉ else ⌊q⌋

/-- The segmentation loop of `create_time_based_segments` (`scenes.py`
lines 259-282). The source enters the loop only after validating
`segment_duration > 0`; that guard is carried into the recursion here so
that it terminates on all inputs, without changing any guarded call. -/
def segGo (video_duration fps segment_duration : ℚ) (current_time : ℚ)
    (current_frame : Int) : List Scene :=
  if h : current_time < video_duration ∧ 0 < segment_duration then
    let end_time := min (current_time + segment_duration) video_duration
    let end_frame := pyInt (end_time * fps)
    ⟨current_time, end_time, current_frame, end_frame, 0, "", ""⟩ ::
      segGo video_duration fps segment_duration end_time end_frame
  else []
termination_by (⌈(video_duration - current_time) / segment_duration⌉).toNat
decreasing_by
  have hlt := h.1
  have hsd := h.2
  have hpos : (0 : ℚ) < (video_duration - current_time) / segment_duration :=
    div_pos (by linarith) hsd
  have hceil : 0 < ⌈(video_duration - current_time) / segment_duration⌉ :=
    Int.ceil_pos.mpr hpos
  rcases le_or_lt (current_time + segment_duration) video_duration with hc | hc
  · have hmin : min (current_time + segment_duration) video_duration =
        current_time + segment_duration := min_eq_left hc
    rw [hmin]
    have harith : (video_duration - (current_time + segment_duration)) / segment_duration =
        (video_duration - current_time) / segment_duration - 1 := by
      field_simp
      ring
    rw [harith, Int.ceil_sub_one]
    omega
  · have hmin : min (current_time + segment_duration) video_duration =
        video_duration := min_eq_right (le_of_lt hc)
    rw [hmin]
    simp only [sub_self, zero_div, Int.ceil_zero]
    omega

/-- Create fixed-duration time-based segments (`scenes.py`,
`create_time_based_segments`). -/
def create_time_based_segments (video_duration fps segment_duration : ℚ) :
    Except String (List Scene) :=
  if video_duration ≤ 0 then
    .error ("video_duration must be > 0, got " ++ toString video_duration)
  else if fps ≤ 0 then
    .error ("fps must be > 0, got " ++ toString fps)
  else if segment_duration ≤ 0 then
    .error ("segment_duration must be > 0, got " ++ toString segment_duration)
  else .ok (segGo video_duration fps segment_duration 0 0)

/-- The merged scene built when a short scene is absorbed by a neighbor
(`merge_short_scenes` lines 388-394 and 401-407). -/
def mergedScene (a b : Scene) : Scene :=
  ⟨a.start_time, b.end_time, a.start_frame, b.end_frame,
    max a.metric_value b.metric_value, "", ""⟩

/-- The merging loop of `merge_short_scenes` (`scenes.py` lines 373-414),
with `acc` holding the already-emitted scenes in reverse.
A long-enough scene is kept; a short scene with a successor is merged
forward into it (consuming both); a short final scene is merged backward
into the previously emitted scene, or kept as-is if there is none. -/
def mergeGo (min_duration : ℚ) (acc : List Scene) : List Scene → List Scene
  | [] => acc.reverse
  | [current] =>
    if min_duration ≤ current.duration then (current :: acc).reverse
    else
      match acc with
      | prev :: accTail => (mergedScene prev current :: accTail).reverse
      | [] => [current]
  | current :: next :: rest =>
    if min_duration ≤ current.duration then
      mergeGo min_duration (current :: acc) (next :: rest)
    else
      mergeGo min_duration (mergedScene current next :: acc) rest

/-- Merge scenes shorter than `min_duration` with adjacent scenes
(`scenes.py`, `merge_short_scenes`). -/
def merge_short_scenes (scenes : List Scene) (min_duration : ℚ) :
    Except String (List Scene) :=
  if min_duration < 0 then
    .error ("min_duration must be >= 0, got " ++ toString min_duration)
  else if scenes = [] then .ok []
  else if scenes.length = 1 then .ok scenes
  else .ok (mergeGo min_duration [] scenes)

/-- Python list indexing `l[i]`, including the wrap-around for negative
indices. An out-of-range access raises in Python; it is unreachable in
the guarded uses below and is given the junk value 0 here. -/
def pyIndex (l : List ℚ) (i : Int) : ℚ :=
  if 0 ≤ i then l.getD i.toNat 0 else l.getD (l.length - (-i).toNat) 0

/-- The percentile threshold of `identify_boring_sections`
(`scene/analysis.py` lines 95-98): ascending-sorted metric values,
indexed at `int(N * percentile_threshold / 100)`, falling back to the
first element when that index is out of range. -/
def boring_threshold (scenes : List Scene) (percentile_threshold : ℚ) : ℚ :=
  let metric_values := (scenes.map (fun s => s.metric_value)).mergeSort
    (fun a b => a ≤ b)
  let threshold_idx := pyInt ((metric_values.length : ℚ) * (percentile_threshold / 100))
  if threshold_idx < (metric_values.length : Int) then pyIndex metric_values threshold_idx
  else pyIndex metric_values 0

/-- The enumeration loop of `identify_boring_sections`
(`scene/analysis.py` lines 101-113): each scene strictly below the
threshold is reported with speedup `min(2 + 2*(1 - value/threshold), 4)`
when the threshold is positive, else `min(3, 4)`. -/
def boringGo (threshold : ℚ) (i : Nat) : List Scene → List (Nat × ℚ)
  | [] => []
  | sc :: rest =>
    if sc.metric_value < threshold then
      (i, min (if 0 < threshold then 2 + 2 * (1 - sc.metric_value / threshold) else 3) 4) ::
        boringGo threshold (i + 1) rest
    else boringGo threshold (i + 1) rest

/-- Identify boring sections based on scene metric values
(`scene/analysis.py`, `identify_boring_sections`). -/
def identify_boring_sections (scenes : List Scene)
    (percentile_threshold : ℚ) : List (Nat × ℚ) :=
  if scenes = [] then []
  else boringGo (boring_threshold scenes percentile_threshold) 0 scenes

/-! ## Theorems -/

/-- C6: for `max_val > min_val`, `normalize` maps `min_val` to 0,
`max_val` to 100 and the midpoint to 50; and whenever
`min_val = max_val` it maps every value to 50. -/
theorem normalize_endpoint_values (min_val max_val value : ℚ) :
    (min_val < max_val →
      normalize min_val min_val max_val = 0 ∧
      normalize max_val min_val max_val = 100 ∧
      normalize ((min_val + max_val) / 2) min_val max_val = 50) ∧
    (min_val = max_val → normalize value min_val max_val = 50) := by
  constructor
  · intro h
    have hd : max_val - min_val > 0 := by linarith
    have hne : max_val - min_val ≠ 0 := ne_of_gt hd
    refine ⟨?_, ?_, ?_⟩ <;> simp only [normalize, if_pos hd]
    · simp
    · field_simp
    · field_simp
      ring
  · intro h
    simp [normalize, h]

/-- Witness for `normalize_endpoint_values` at `min_val = 0`,
`max_val = 10`, `value = 7`. -/
theorem normalize_endpoint_values_witness :
    (normalize 0 0 10 = 0 ∧ normalize 10 0 10 = 100 ∧
      normalize ((0 + 10) / 2) 0 10 = 50) ∧ normalize 7 3 3 = 50 :=
  ⟨(normalize_endpoint_values 0 10 7).1 (by norm_num),
   (normalize_endpoint_values 3 3 7).2 rfl⟩

/-- C10: whenever `max_x ≤ 0` and `max_y ≤ 0`, `generate_analysis_grid`
returns exactly `[Position(0, 0)]` for every `grid_size` whatsoever,
including invalid ones, because the degenerate no-movement case is
decided before the `grid_size` validation. -/
theorem grid_degenerate_before_validation (max_x max_y grid_size : Int)
    (hx : max_x ≤ 0) (hy : max_y ≤ 0) :
    generate_analysis_grid max_x max_y grid_size = .ok [⟨0, 0⟩] := by
  unfold generate_analysis_grid
  rw [if_pos ⟨hx, hy⟩]

/-- Witness for `grid_degenerate_before_validation` at
`max_x = -3`, `max_y = 0`, `grid_size = -7`. -/
theorem grid_degenerate_before_validation_witness :
    generate_analysis_grid (-3) 0 (-7) = .ok [⟨0, 0⟩] :=
  grid_degenerate_before_validation (-3) 0 (-7) (by norm_num) le_rfl

/-- An unknown strategy name has no weights in the strategy table. -/
theorem strategyWeights_eq_none {strategy : String}
    (h : knownStrategy strategy = false) : strategyWeights strategy = none := by
  have h2 : ∀ p ∈ STRATEGIES, ¬(decide (p.1 = strategy) = true) := by
    intro p hp hc
    have : STRATEGIES.any (fun p => decide (p.1 = strategy)) = true :=
      List.any_eq_true.mpr ⟨p, hp, hc⟩
    rw [knownStrategy] at h
    simp_all
  simp [strategyWeights, List.find?_eq_none.mpr h2]

/-- C9: invalid inputs raise an error immediately. `score_position` on an
unknown strategy fails with the message naming that strategy and listing
the five valid strategy names (see `unknownStrategyMsg`), and
`generate_candidates` fails on an empty positions list, non-positive
video dimensions, `max_candidates < 1`, or `top_per_strategy < 1`. -/
theorem invalid_inputs_error (metrics : PositionMetrics)
    (bounds : NormalizationBounds) (strategy : String)
    (positions : List PositionMetrics)
    (vw vh mc tps : Int) :
    (knownStrategy strategy = false →
      score_position metrics bounds strategy = .error (unknownStrategyMsg strategy)) ∧
    (positions = [] ∨ vw ≤ 0 ∨ vh ≤ 0 ∨ mc < 1 ∨ tps < 1 →
      ∃ e, generate_candidates positions bounds vw vh mc tps = .error e) := by
  constructor
  · intro h
    rw [score_position, strategyWeights_eq_none h]
  · intro h
    unfold generate_candidates
    split_ifs with h1 h2 h3 h4
    · exact ⟨_, rfl⟩
    · exact ⟨_, rfl⟩
    · exact ⟨_, rfl⟩
    · exact ⟨_, rfl⟩
    · rcases h with h | h | h | h | h
      · exact absurd h h1
      · exact absurd (Or.inl h) h2
      · exact absurd (Or.inr h) h2
      · exact absurd h h3
      · exact absurd h h4

/-- Witness for `invalid_inputs_error`: an unknown strategy name and an
empty positions list. -/
theorem invalid_inputs_error_witness :
    (score_position ⟨0, 0, 0, 0, 0, 0⟩ ⟨0, 0, 0, 0, 0, 0, 0, 0⟩ ("Bogus") =
      .error (unknownStrategyMsg ("Bogus"))) ∧
    ∃ e, generate_candidates [] ⟨0, 0, 0, 0, 0, 0, 0, 0⟩ 1920 1080 10 5 = .error e :=
  ⟨(invalid_inputs_error ⟨0, 0, 0, 0, 0, 0⟩ ⟨0, 0, 0, 0, 0, 0, 0, 0⟩ ("Bogus")
      [] 1920 1080 10 5).1 (by decide),
   (invalid_inputs_error ⟨0, 0, 0, 0, 0, 0⟩ ⟨0, 0, 0, 0, 0, 0, 0, 0⟩ ("Bogus")
      [] 1920 1080 10 5).2 (Or.inl rfl)⟩

/-- `normalize` stays in `[0, 100]` when the value lies within the range. -/
theorem normalize_mem_Icc (value min_val max_val : ℚ)
    (h1 : min_val ≤ value) (h2 : value ≤ max_val) :
    0 ≤ normalize value min_val max_val ∧ normalize value min_val max_val ≤ 100 := by
  unfold normalize
  split_ifs with h
  · constructor
    · have hq : 0 ≤ (value - min_val) / (max_val - min_val) :=
        div_nonneg (by linarith) (le_of_lt h)
      linarith
    · have hq : (value - min_val) / (max_val - min_val) ≤ 1 := by
        rw [div_le_one h]
        linarith
      linarith
  · norm_num

/-- The weighted sum of four `[0, 100]`-normalized metrics under
nonnegative weights summing to 1 lies in `[0, 100]`. -/
theorem scoreWith_mem_Icc (m : PositionMetrics) (b : NormalizationBounds)
    (w : Weights)
    (hm1 : b.motion_min ≤ m.motion) (hm2 : m.motion ≤ b.motion_max)
    (hc1 : b.complexity_min ≤ m.complexity) (hc2 : m.complexity ≤ b.complexity_max)
    (he1 : b.edges_min ≤ m.edges) (he2 : m.edges ≤ b.edges_max)
    (hs1 : b.saturation_min ≤ m.saturation) (hs2 : m.saturation ≤ b.saturation_max)
    (hw1 : 0 ≤ w.motion) (hw2 : 0 ≤ w.complexity) (hw3 : 0 ≤ w.edges)
    (hw4 : 0 ≤ w.saturation)
    (hsum : w.motion + w.complexity + w.edges + w.saturation = 1) :
    0 ≤ scoreWith m b w ∧ scoreWith m b w ≤ 100 := by
  have n1 := normalize_mem_Icc m.motion b.motion_min b.motion_max hm1 hm2
  have n2 := normalize_mem_Icc m.complexity b.complexity_min b.complexity_max hc1 hc2
  have n3 := normalize_mem_Icc m.edges b.edges_min b.edges_max he1 he2
  have n4 := normalize_mem_Icc m.saturation b.saturation_min b.saturation_max hs1 hs2
  unfold scoreWith
  constructor
  · have p1 := mul_nonneg n1.1 hw1
    have p2 := mul_nonneg n2.1 hw2
    have p3 := mul_nonneg n3.1 hw3
    have p4 := mul_nonneg n4.1 hw4
    linarith
  · have q1 := mul_le_mul_of_nonneg_right n1.2 hw1
    have q2 := mul_le_mul_of_nonneg_right n2.2 hw2
    have q3 := mul_le_mul_of_nonneg_right n3.2 hw3
    have q4 := mul_le_mul_of_nonneg_right n4.2 hw4
    linarith

/-- C1 (amended): every built-in strategy has four nonnegative weights
summing to 1.0 within the 0.01 tolerance, and for every built-in
strategy `score_position` returns a value in `[0, 100]` whenever each
metric lies within its normalization bounds. (Without that
within-bounds restriction the property fails; see
`score_position_above_100`: `normalize` does not clamp a value outside
`[min, max]`, so the score can leave `[0, 100]`.) -/
theorem score_position_range_and_weights :
    (∀ (m : PositionMetrics) (b : NormalizationBounds) (strategy : String),
      knownStrategy strategy = true →
      b.motion_min ≤ m.motion → m.motion ≤ b.motion_max →
      b.complexity_min ≤ m.complexity → m.complexity ≤ b.complexity_max →
      b.edges_min ≤ m.edges → m.edges ≤ b.edges_max →
      b.saturation_min ≤ m.saturation → m.saturation ≤ b.saturation_max →
      ∃ s, score_position m b strategy = .ok s ∧ 0 ≤ s ∧ s ≤ 100) ∧
    (∀ p ∈ STRATEGIES,
      0 ≤ p.2.motion ∧ 0 ≤ p.2.complexity ∧ 0 ≤ p.2.edges ∧ 0 ≤ p.2.saturation ∧
      0.99 ≤ p.2.motion + p.2.complexity + p.2.edges + p.2.saturation ∧
      p.2.motion + p.2.complexity + p.2.edges + p.2.saturation ≤ 1.01) := by
  constructor
  · intro m b strategy hknown hm1 hm2 hc1 hc2 he1 he2 hs1 hs2
    obtain ⟨p, hp, hps⟩ := List.any_eq_true.mp hknown
    have hstrat : strategy = p.1 := (of_decide_eq_true hps).symm
    subst hstrat
    fin_cases hp <;>
      exact ⟨_, rfl,
        scoreWith_mem_Icc m b _ hm1 hm2 hc1 hc2 he1 he2 hs1 hs2
          (by norm_num) (by norm_num) (by norm_num) (by norm_num) (by norm_num)⟩
  · intro p hp
    fin_cases hp <;> norm_num

/-- Witness for `score_position_range_and_weights`: metrics strictly
inside their bounds under the Balanced strategy. -/
theorem score_position_range_and_weights_witness :
    ∃ s, score_position ⟨10, 20, 1, 2, 3, 4⟩ ⟨0, 2, 0, 4, 0, 6, 0, 8⟩ ("Balanced") =
      .ok s ∧ 0 ≤ s ∧ s ≤ 100 :=
  (score_position_range_and_weights).1 ⟨10, 20, 1, 2, 3, 4⟩ ⟨0, 2, 0, 4, 0, 6, 0, 8⟩
    ("Balanced") (by decide) (by norm_num) (by norm_num) (by norm_num) (by norm_num)
    (by norm_num) (by norm_num) (by norm_num) (by norm_num)

/-- Counterexample to C1 as stated: with every metric equal to 2 but all
normalization bounds `[0, 1]`, the Balanced strategy scores the position
at 200, outside `[0, 100]` — `score_position` is NOT bounded by 100 for
arbitrary metrics/bounds combinations. -/
theorem score_position_above_100 :
    score_position ⟨0, 0, 2, 2, 2, 2⟩ ⟨0, 1, 0, 1, 0, 1, 0, 1⟩ ("Balanced") =
      .ok 200 ∧ ¬((200 : ℚ) ≤ 100) := by
  constructor
  · have hw : strategyWeights ("Balanced") = some balancedWeights := by rfl
    rw [score_position, hw]
    norm_num [scoreWith, normalize, balancedWeights]
  · norm_num

/-- C5: for positive movement ranges and `grid_size ≥ 2`,
`generate_analysis_grid` is the row-major cross product of
`grid_size` coordinates per axis, the coordinate at index `i` being
`max 1 (max * i / (grid_size - 1))` (integer floor division), hence
`grid_size²` positions; in particular `generate_analysis_grid 400 300 5`
yields 25 positions with all coordinates ≥ 1, maximal x exactly 400 and
maximal y exactly 300. -/
theorem grid_cross_product_formula :
    (∀ max_x max_y grid_size : Int, 0 < max_x → 0 < max_y → 2 ≤ grid_size →
      generate_analysis_grid max_x max_y grid_size =
        .ok ((List.range grid_size.toNat).flatMap (fun (j : Nat) =>
          (List.range grid_size.toNat).map (fun (i : Nat) =>
            ⟨max 1 (max_x * (i : Int) / (grid_size - 1)),
             max 1 (max_y * (j : Int) / (grid_size - 1))⟩))) ∧
      (∀ l, generate_analysis_grid max_x max_y grid_size = .ok l →
        l.length = grid_size.toNat * grid_size.toNat)) ∧
    (∃ l, generate_analysis_grid 400 300 5 = .ok l ∧ l.length = 25 ∧
      (∀ p ∈ l, 1 ≤ p.x ∧ 1 ≤ p.y ∧ p.x ≤ 400 ∧ p.y ≤ 300) ∧
      (∃ p ∈ l, p.x = 400) ∧ (∃ p ∈ l, p.y = 300)) := by
  constructor
  · intro max_x max_y grid_size hx hy hg
    have heq : generate_analysis_grid max_x max_y grid_size =
        .ok ((List.range grid_size.toNat).flatMap (fun (j : Nat) =>
          (List.range grid_size.toNat).map (fun (i : Nat) =>
            ⟨max 1 (max_x * (i : Int) / (grid_size - 1)),
             max 1 (max_y * (j : Int) / (grid_size - 1))⟩))) := by
      unfold generate_analysis_grid
      rw [if_neg (by omega), if_neg (by omega)]
      simp only [if_neg (by omega : ¬grid_size = 1), if_pos hx, if_pos hy]
      rw [List.flatMap_map]
      refine congrArg _ (List.flatMap_congr ?_)
      intro j _
      rw [List.map_map]
      rfl
    refine ⟨heq, ?_⟩
    intro l hl
    rw [heq] at hl
    cases hl
    simp [List.length_flatMap, List.map_map, Function.comp_def, List.map_const',
      List.sum_replicate, smul_eq_mul]
  · exact ⟨_, rfl, by decide, by decide, by decide, by decide⟩

/-- Witness for `grid_cross_product_formula` at `(400, 300, 3)`. -/
theorem grid_cross_product_formula_witness :
    generate_analysis_grid 400 300 3 =
      .ok ((List.range (3 : Int).toNat).flatMap (fun (j : Nat) =>
        (List.range (3 : Int).toNat).map (fun (i : Nat) =>
          ⟨max 1 (400 * (i : Int) / ((3 : Int) - 1)),
           max 1 (300 * (j : Int) / ((3 : Int) - 1))⟩))) :=
  ((grid_cross_product_formula).1 400 300 3 (by norm_num) (by norm_num)
    (by norm_num)).1

/-- C8: `merge_short_scenes` merges a too-short scene forward into its
successor (the merged scene `mergedScene s next` spans the short scene's
start to the successor's end and takes the max of the two metric
values), merges a short final scene backward into its predecessor, and
keeps a lone short scene as-is; on
`[Scene(0,5), Scene(5,5.2), Scene(5.2,10)]` with `min_duration = 0.5` it
yields exactly two scenes, the second spanning `(5, 10)`. -/
theorem merge_short_scenes_behavior :
    (∀ (d : ℚ) (s : Scene), 0 ≤ d → merge_short_scenes [s] d = .ok [s]) ∧
    (∀ (d : ℚ) (s next : Scene) (rest : List Scene), 0 ≤ d → s.duration < d →
      merge_short_scenes (s :: next :: rest) d =
        .ok (mergeGo d [mergedScene s next] rest)) ∧
    (∀ (d : ℚ) (prev fin : Scene), 0 ≤ d → d ≤ prev.duration → fin.duration < d →
      merge_short_scenes [prev, fin] d = .ok [mergedScene prev fin]) ∧
    merge_short_scenes
      [⟨0, 5, 0, 150, 0, "", ""⟩, ⟨5, 5.2, 150, 156, 0, "", ""⟩,
       ⟨5.2, 10, 156, 300, 0, "", ""⟩] 0.5 =
      .ok [⟨0, 5, 0, 150, 0, "", ""⟩, ⟨5, 10, 150, 300, 0, "", ""⟩] := by
  refine ⟨?_, ?_, ?_, ?_⟩
  · intro d s hd
    rw [merge_short_scenes, if_neg (by linarith), if_neg (by simp)]
    simp
  · intro d s next rest hd hshort
    rw [merge_short_scenes, if_neg (by linarith), if_neg (by simp),
      if_neg (by simp)]
    rw [mergeGo, if_neg (by linarith)]
  · intro d prev fin hd hlong hshort
    rw [merge_short_scenes, if_neg (by linarith), if_neg (by simp),
      if_neg (by simp)]
    rw [mergeGo, if_pos hlong, mergeGo, if_neg (by linarith)]
    rfl
  · rw [merge_short_scenes, if_neg (by norm_num), if_neg (by simp),
      if_neg (by simp)]
    rw [mergeGo, if_pos (by norm_num [Scene.duration])]
    rw [mergeGo, if_neg (by norm_num [Scene.duration])]
    rw [mergeGo]
    norm_num [mergedScene]

/-- Witness for `merge_short_scenes_behavior`: a lone (even short) scene
is returned unchanged. -/
theorem merge_short_scenes_behavior_witness :
    merge_short_scenes [⟨0, 0.2, 0, 6, 0, "", ""⟩] 0.5 =
      .ok [⟨0, 0.2, 0, 6, 0, "", ""⟩] :=
  (merge_short_scenes_behavior).1 0.5 ⟨0, 0.2, 0, 6, 0, "", ""⟩ (by norm_num)

/-- Every speedup emitted by the boring-section walk lies in `[2, 4]`. -/
theorem boringGo_speedup_range (t : ℚ) :
    ∀ (l : List Scene) (i : Nat) (pr : Nat × ℚ), pr ∈ boringGo t i l →
      2 ≤ pr.2 ∧ pr.2 ≤ 4
  | [], _, _, h => by simp [boringGo] at h
  | sc :: rest, i, pr, h => by
    by_cases hlt : sc.metric_value < t
    · rw [boringGo, if_pos hlt] at h
      rcases List.mem_cons.mp h with hh | hh
      · subst hh
        refine ⟨le_min ?_ (by norm_num), min_le_right _ _⟩
        by_cases ht : 0 < t
        · rw [if_pos ht]
          have hr : sc.metric_value / t < 1 := (div_lt_one ht).mpr hlt
          linarith
        · rw [if_neg ht]
          norm_num
      · exact boringGo_speedup_range t rest (i + 1) pr hh
    · rw [boringGo, if_neg hlt] at h
      exact boringGo_speedup_range t rest (i + 1) pr h

/-- Indices emitted by the boring-section walk start at the running
counter. -/
theorem boringGo_index_ge (t : ℚ) :
    ∀ (l : List Scene) (i : Nat) (pr : Nat × ℚ), pr ∈ boringGo t i l → i ≤ pr.1
  | [], _, _, h => by simp [boringGo] at h
  | sc :: rest, i, pr, h => by
    by_cases hlt : sc.metric_value < t
    · rw [boringGo, if_pos hlt] at h
      rcases List.mem_cons.mp h with hh | hh
      · subst hh
        exact le_rfl
      · exact le_trans (by omega) (boringGo_index_ge t rest (i + 1) pr hh)
    · rw [boringGo, if_neg hlt] at h
      exact le_trans (by omega) (boringGo_index_ge t rest (i + 1) pr h)

/-- A scene with metric value 0 under a positive threshold is emitted
with speedup exactly 4. -/
theorem boringGo_zero_metric (t : ℚ) (ht : 0 < t) :
    ∀ (l : List Scene) (i j : Nat) (hj : j < l.length),
      (l.get ⟨j, hj⟩).metric_value = 0 → (i + j, 4) ∈ boringGo t i l
  | [], _, _, hj, _ => absurd hj (by simp)
  | sc :: rest, i, 0, _, h0 => by
    simp only [List.get] at h0
    rw [boringGo, if_pos (by rw [h0]; exact ht)]
    have h4 : min (if 0 < t then 2 + 2 * (1 - sc.metric_value / t) else 3) 4 = 4 := by
      rw [if_pos ht, h0]
      norm_num
    rw [h4]
    exact List.mem_cons_self _ _
  | sc :: rest, i, j + 1, hj, h0 => by
    have hj2 : j < rest.length := by simpa using hj
    have ih := boringGo_zero_metric t ht rest (i + 1) j hj2 (by simpa using h0)
    have harith : i + 1 + j = i + (j + 1) := by omega
    rw [harith] at ih
    by_cases hlt : sc.metric_value < t
    · rw [boringGo, if_pos hlt]
      exact List.mem_cons_of_mem _ ih
    · rw [boringGo, if_neg hlt]
      exact ih

/-- A scene whose metric value equals the threshold is never emitted
(the comparison is strict). -/
theorem boringGo_at_threshold (t : ℚ) :
    ∀ (l : List Scene) (i j : Nat) (hj : j < l.length),
      (l.get ⟨j, hj⟩).metric_value = t → ∀ q, (i + j, q) ∉ boringGo t i l
  | [], _, _, hj, _ => absurd hj (by simp)
  | sc :: rest, i, 0, _, h0 => by
    intro q hq
    simp only [List.get] at h0
    rw [boringGo, if_neg (by rw [h0]; exact lt_irrefl t)] at hq
    have := boringGo_index_ge t rest (i + 1) (i + 0, q) hq
    omega
  | sc :: rest, i, j + 1, hj, h0 => by
    intro q hq
    have hj2 : j < rest.length := by simpa using hj
    have ih := boringGo_at_threshold t rest (i + 1) j hj2 (by simpa using h0) q
    have harith : i + (j + 1) = i + 1 + j := by omega
    by_cases hlt : sc.metric_value < t
    · rw [boringGo, if_pos hlt] at hq
      rcases List.mem_cons.mp hq with hh | hh
      · have : i + (j + 1) = i := congrArg Prod.fst hh
        omega
      · exact ih (by rwa [harith] at hh)
    · rw [boringGo, if_neg hlt] at hq
      exact ih (by rwa [harith] at hq)

/-- C3: for a nonempty scene list and a percentile in `[0, 100]`, the
threshold of `identify_boring_sections` is the ascending-sorted metric
value at index `⌊N * percentile/100⌋`, clamped to the first element when
that index is out of range; every returned speedup lies in `[2, 4]`; a
scene with metric value 0 under a positive threshold is returned with
speedup exactly 4; and a scene whose metric value equals the threshold
is not returned at all. -/
theorem identify_boring_sections_props (scenes : List Scene) (p : ℚ)
    (hne : scenes ≠ []) (hp0 : 0 ≤ p) (hp1 : p ≤ 100) :
    (boring_threshold scenes p =
      (let vals := (scenes.map (fun s => s.metric_value)).mergeSort (fun a b => a ≤ b)
       let idx := (⌊(scenes.length : ℚ) * (p / 100)⌋).toNat
       if idx < vals.length then vals.getD idx 0 else vals.getD 0 0)) ∧
    (∀ pr ∈ identify_boring_sections scenes p, 2 ≤ pr.2 ∧ pr.2 ≤ 4) ∧
    (∀ j (hj : j < scenes.length), (scenes.get ⟨j, hj⟩).metric_value = 0 →
      0 < boring_threshold scenes p → (j, 4) ∈ identify_boring_sections scenes p) ∧
    (∀ j (hj : j < scenes.length),
      (scenes.get ⟨j, hj⟩).metric_value = boring_threshold scenes p →
      ∀ q, (j, q) ∉ identify_boring_sections scenes p) := by
  have hgo : identify_boring_sections scenes p =
      boringGo (boring_threshold scenes p) 0 scenes := by
    rw [identify_boring_sections, if_neg hne]
  refine ⟨?_, ?_, ?_, ?_⟩
  · rw [boring_threshold]
    simp only [(List.mergeSort_perm (scenes.map (fun s => s.metric_value))
      (fun a b => decide (a ≤ b))).length_eq, List.length_map]
    have hq0 : (0 : ℚ) ≤ (scenes.length : ℚ) * (p / 100) :=
      mul_nonneg (Nat.cast_nonneg _) (div_nonneg hp0 (by norm_num))
    rw [pyInt, if_neg (not_lt.mpr hq0)]
    have hfl0 : 0 ≤ ⌊(scenes.length : ℚ) * (p / 100)⌋ := Int.floor_nonneg.mpr hq0
    by_cases h : (⌊(scenes.length : ℚ) * (p / 100)⌋).toNat < scenes.length
    · rw [if_pos (by omega), if_pos h, pyIndex, if_pos hfl0]
    · rw [if_neg (by omega), if_neg h, pyIndex, if_pos le_rfl]
      rfl
  · intro pr hpr
    rw [hgo] at hpr
    exact boringGo_speedup_range _ scenes 0 pr hpr
  · intro j hj h0 ht
    rw [hgo]
    have := boringGo_zero_metric _ ht scenes 0 j hj h0
    simpa using this
  · intro j hj h0 q
    rw [hgo]
    have := boringGo_at_threshold _ scenes 0 j hj h0 q
    simpa using this

/-- Witness for `identify_boring_sections_props`: three scenes with
metric values 5, 10 and 0 at the 50th percentile; the threshold is 5 and
the zero-metric scene (index 2) is reported at speedup 4. -/
theorem identify_boring_sections_props_witness :
    ((2 : Nat), (4 : ℚ)) ∈ identify_boring_sections
      [⟨0, 1, 0, 30, 5, "", ""⟩, ⟨1, 2, 30, 60, 10, "", ""⟩,
       ⟨2, 3, 60, 90, 0, "", ""⟩] 50 :=
  (identify_boring_sections_props
      [⟨0, 1, 0, 30, 5, "", ""⟩, ⟨1, 2, 30, 60, 10, "", ""⟩,
       ⟨2, 3, 60, 90, 0, "", ""⟩] 50
      (by simp) (by norm_num) (by norm_num)).2.2.1 2 (by norm_num) rfl
    (by norm_num [boring_threshold, List.mergeSort, pyInt, pyIndex])

/-- The step of the segmentation loop strictly decreases the
remaining-iterations measure. -/
theorem segStep_measure_lt (dur segd t : ℚ) (hs : 0 < segd) (htd : t < dur) :
    (⌈(dur - min (t + segd) dur) / segd⌉).toNat < (⌈(dur - t) / segd⌉).toNat := by
  have hpos : (0 : ℚ) < (dur - t) / segd := div_pos (by linarith) hs
  have hceil : 0 < ⌈(dur - t) / segd⌉ := Int.ceil_pos.mpr hpos
  rcases le_or_lt (t + segd) dur with hc | hc
  · rw [min_eq_left hc]
    have harith : (dur - (t + segd)) / segd = (dur - t) / segd - 1 := by
      field_simp
      ring
    rw [harith, Int.ceil_sub_one]
    omega
  · rw [min_eq_right (le_of_lt hc)]
    simp only [sub_self, zero_div, Int.ceil_zero]
    omega

/-- Full characterization of the segmentation loop: starting at a time
`t < dur` with the frame counter consistent (`frame = ⌊t * fps⌋`), the
produced segments are nonempty, start at `t`/`frame`, are contiguous in
both time and frames, each ends at `min (start + segd) dur` with frame
numbers `⌊time * fps⌋`, and the last one ends exactly at `dur`. -/
theorem segGo_spec (dur fps segd : ℚ) (hf : 0 < fps) (hs : 0 < segd)
    (t : ℚ) (frame : Int) (ht0 : 0 ≤ t) (htd : t < dur)
    (hfr : frame = ⌊t * fps⌋) :
    (∃ s rest2, segGo dur fps segd t frame = s :: rest2 ∧
      s.start_time = t ∧ s.start_frame = frame) ∧
    (∀ x ∈ segGo dur fps segd t frame,
      x.end_time = min (x.start_time + segd) dur ∧
      x.start_frame = ⌊x.start_time * fps⌋ ∧ x.end_frame = ⌊x.end_time * fps⌋) ∧
    List.Chain' (fun a b => a.end_time = b.start_time) (segGo dur fps segd t frame) ∧
    List.Chain' (fun a b => a.end_frame = b.start_frame) (segGo dur fps segd t frame) ∧
    (segGo dur fps segd t frame).getLast?.map Scene.end_time = some dur := by
  have hunf : segGo dur fps segd t frame =
      ⟨t, min (t + segd) dur, frame, pyInt (min (t + segd) dur * fps), 0, "", ""⟩ ::
        segGo dur fps segd (min (t + segd) dur) (pyInt (min (t + segd) dur * fps)) := by
    rw [segGo, dif_pos ⟨htd, hs⟩]
  have hmin0 : (0 : ℚ) < min (t + segd) dur := lt_min (by linarith) (by linarith)
  have hefps : pyInt (min (t + segd) dur * fps) = ⌊min (t + segd) dur * fps⌋ := by
    rw [pyInt, if_neg (not_lt.mpr (le_of_lt (mul_pos hmin0 hf)))]
  rcases lt_or_le (t + segd) dur with hc | hc
  · have hmin : min (t + segd) dur = t + segd := min_eq_left (le_of_lt hc)
    rw [hmin] at hunf hefps
    have IH := segGo_spec dur fps segd hf hs (t + segd) (pyInt ((t + segd) * fps))
      (by linarith) hc hefps
    obtain ⟨⟨s2, rest2, htail, hs2s, hs2f⟩, hall, hcT, hcF, hlast⟩ := IH
    rw [hunf]
    refine ⟨⟨_, _, rfl, rfl, rfl⟩, ?_, ?_, ?_, ?_⟩
    · intro x hx
      rcases List.mem_cons.mp hx with hx | hx
      · subst hx
        exact ⟨by simp [hmin], by simpa using hfr, by simpa using hefps⟩
      · exact hall x hx
    · rw [htail]
      exact List.chain'_cons.mpr ⟨by simp [hs2s], htail ▸ hcT⟩
    · rw [htail]
      exact List.chain'_cons.mpr ⟨by simp [hs2f], htail ▸ hcF⟩
    · rw [htail, List.getLast?_cons_cons]
      rw [htail] at hlast
      exact hlast
  · have hmin : min (t + segd) dur = dur := min_eq_right hc
    rw [hmin] at hunf hefps
    have htail : segGo dur fps segd dur (pyInt (dur * fps)) = [] := by
      rw [segGo, dif_neg]
      rintro ⟨h1, -⟩
      exact lt_irrefl _ h1
    rw [hunf, htail]
    refine ⟨⟨_, _, rfl, rfl, rfl⟩, ?_, by simp, by simp, by simp⟩
    intro x hx
    rcases List.mem_cons.mp hx with hx | hx
    · subst hx
      refine ⟨by simp [hmin], by simpa using hfr, by simpa using hefps⟩
    · simp at hx
termination_by (⌈(dur - t) / segd⌉).toNat
decreasing_by
  have := segStep_measure_lt dur segd t hs htd
  rwa [hmin] at this

/-- C7: `create_time_based_segments` walks forward from `t = 0` in steps
of `segment_duration`, each segment ending at
`min (start + segment_duration) video_duration` (so only the final one
is clamped short), with frame numbers `⌊time * fps⌋`; the segments are
contiguous, start at time 0 / frame 0, and end at `video_duration`. For
duration 12.5, fps 30 and segment duration 5 it returns exactly three
scenes with durations 5, 5 and 2.5. -/
theorem create_time_based_segments_props :
    (∀ dur fps segd : ℚ, 0 < dur → 0 < fps → 0 < segd →
      ∃ l, create_time_based_segments dur fps segd = .ok l ∧ l ≠ [] ∧
        l.head?.map Scene.start_time = some 0 ∧
        l.head?.map Scene.start_frame = some 0 ∧
        List.Chain' (fun a b => a.end_time = b.start_time) l ∧
        List.Chain' (fun a b => a.end_frame = b.start_frame) l ∧
        (∀ s ∈ l, s.end_time = min (s.start_time + segd) dur ∧
          s.start_frame = ⌊s.start_time * fps⌋ ∧ s.end_frame = ⌊s.end_time * fps⌋) ∧
        l.getLast?.map Scene.end_time = some dur) ∧
    create_time_based_segments 12.5 30 5 =
      .ok [⟨0, 5, 0, 150, 0, "", ""⟩, ⟨5, 10, 150, 300, 0, "", ""⟩,
           ⟨10, 12.5, 300, 375, 0, "", ""⟩] := by
  constructor
  · intro dur fps segd hd hf hs
    have hwrap : create_time_based_segments dur fps segd =
        .ok (segGo dur fps segd 0 0) := by
      rw [create_time_based_segments, if_neg (by linarith), if_neg (by linarith),
        if_neg (by linarith)]
    have hspec := segGo_spec dur fps segd hf hs 0 0 le_rfl hd (by simp)
    obtain ⟨⟨s, rest2, hcons, hss, hsf⟩, hall, hcT, hcF, hlast⟩ := hspec
    refine ⟨segGo dur fps segd 0 0, hwrap, by simp [hcons], ?_, ?_, hcT, hcF, hall, hlast⟩
    · rw [hcons]
      simp [hss]
    · rw [hcons]
      simp [hsf]
  · rw [create_time_based_segments, if_neg (by norm_num), if_neg (by norm_num),
      if_neg (by norm_num)]
    rw [segGo, dif_pos (by norm_num)]
    norm_num [pyInt, min_def]
    rw [segGo, dif_pos (by norm_num)]
    norm_num [pyInt, min_def]
    rw [segGo, dif_pos (by norm_num)]
    norm_num [pyInt, min_def]
    rw [segGo, dif_neg (by norm_num)]

/-- Witness for `create_time_based_segments_props` at
`(12.5, 30, 5)`. -/
theorem create_time_based_segments_props_witness :
    ∃ l, create_time_based_segments 12.5 30 5 = .ok l ∧ l ≠ [] ∧
      l.head?.map Scene.start_time = some 0 ∧
      l.head?.map Scene.start_frame = some 0 ∧
      List.Chain' (fun a b => a.end_time = b.start_time) l ∧
      List.Chain' (fun a b => a.end_frame = b.start_frame) l ∧
      (∀ s ∈ l, s.end_time = min (s.start_time + 5) 12.5 ∧
        s.start_frame = ⌊s.start_time * 30⌋ ∧ s.end_frame = ⌊s.end_time * 30⌋) ∧
      l.getLast?.map Scene.end_time = some 12.5 :=
  (create_time_based_segments_props).1 12.5 30 5 (by norm_num) (by norm_num)
    (by norm_num)

/-- Consecutive scenes produced by `pairScenes` share their boundary:
each scene's end time is the next scene's start time. -/
theorem pairScenes_chain : ∀ l : List (ℚ × Int),
    List.Chain' (fun a b : Scene => a.end_time = b.start_time) (pairScenes l)
  | [] => by simp [pairScenes]
  | [_] => by simp [pairScenes]
  | a :: b :: rest => by
    have ih := pairScenes_chain (b :: rest)
    cases rest with
    | nil => simp [pairScenes]
    | cons c cs =>
      have h1 : pairScenes (a :: b :: c :: cs) =
          ⟨a.1, b.1, a.2, b.2, 0, "", ""⟩ :: pairScenes (b :: c :: cs) := rfl
      have h2 : pairScenes (b :: c :: cs) =
          ⟨b.1, c.1, b.2, c.2, 0, "", ""⟩ :: pairScenes (c :: cs) := rfl
      rw [h1, h2]
      refine List.chain'_cons.mpr ⟨rfl, ?_⟩
      rw [← h2]
      exact ih

/-- The last scene produced by `pairScenes` ends at the last boundary
timestamp. -/
theorem pairScenes_last : ∀ (a b : ℚ × Int) (rest : List (ℚ × Int)),
    (pairScenes (a :: b :: rest)).getLast?.map Scene.end_time =
      (b :: rest).getLast?.map Prod.fst
  | _, _, [] => by simp [pairScenes]
  | a, b, c :: cs => by
    have ih := pairScenes_last b c cs
    have h1 : pairScenes (a :: b :: c :: cs) =
        ⟨a.1, b.1, a.2, b.2, 0, "", ""⟩ :: pairScenes (b :: c :: cs) := rfl
    have h2 : pairScenes (b :: c :: cs) =
        ⟨b.1, c.1, b.2, c.2, 0, "", ""⟩ :: pairScenes (c :: cs) := rfl
    rw [h1, h2, List.getLast?_cons_cons, ← h2, ih, List.getLast?_cons_cons]

/-- The order-preserving duplicate removal keeps exactly the elements of
the list that are not in the `seen` accumulator. -/
theorem dedupTsGo_mem : ∀ (l seen : List (ℚ × Int)) (x : ℚ × Int),
    x ∈ dedupTsGo seen l ↔ (x ∈ l ∧ x ∉ seen)
  | [], seen, x => by simp [dedupTsGo]
  | t :: ts, seen, x => by
    by_cases hmem : t ∈ seen
    · rw [dedupTsGo, if_pos hmem, dedupTsGo_mem ts seen x]
      constructor
      · rintro ⟨h1, h2⟩
        exact ⟨List.mem_cons_of_mem _ h1, h2⟩
      · rintro ⟨h1, h2⟩
        rcases List.mem_cons.mp h1 with rfl | h1
        · exact absurd hmem h2
        · exact ⟨h1, h2⟩
    · rw [dedupTsGo, if_neg hmem]
      constructor
      · intro h
        rcases List.mem_cons.mp h with rfl | h
        · exact ⟨List.mem_cons_self _ _, hmem⟩
        · have h3 := (dedupTsGo_mem ts (t :: seen) x).mp h
          exact ⟨List.mem_cons_of_mem _ h3.1,
            fun hx => h3.2 (List.mem_cons_of_mem _ hx)⟩
      · rintro ⟨h1, h2⟩
        rcases List.mem_cons.mp h1 with rfl | h1
        · exact List.mem_cons_self _ _
        · by_cases hxt : x = t
          · subst hxt
            exact List.mem_cons_self _ _
          · exact List.mem_cons_of_mem _ ((dedupTsGo_mem ts (t :: seen) x).mpr
              ⟨h1, by simp [List.mem_cons, hxt, h2]⟩)

/-- C4 (amended): the scenes built by `create_scenes_from_timestamps`
are always contiguous (each scene's end time is the next one's start
time); when every supplied cut timestamp lies within
`[0, video_duration]`, the first scene additionally starts at time 0 and
the last one ends at `video_duration`; and an empty cuts list with
duration 10 and 300 frames yields the single scene `(0, 10, 0, 300)`.
(Without the range restriction the endpoint property fails; see
`create_scenes_from_timestamps_cex`.) -/
theorem create_scenes_from_timestamps_props :
    (∀ (cuts : List (ℚ × Int)) (dur : ℚ) (tf : Int) (l : List Scene),
      create_scenes_from_timestamps cuts dur tf = .ok l →
      List.Chain' (fun a b : Scene => a.end_time = b.start_time) l) ∧
    (∀ (cuts : List (ℚ × Int)) (dur : ℚ) (tf : Int), 0 < dur → 0 < tf →
      (∀ c ∈ cuts, 0 ≤ c.1 ∧ c.1 ≤ dur) →
      ∀ l, create_scenes_from_timestamps cuts dur tf = .ok l →
        l ≠ [] ∧ l.head?.map Scene.start_time = some 0 ∧
        l.getLast?.map Scene.end_time = some dur) ∧
    create_scenes_from_timestamps [] 10 300 = .ok [⟨0, 10, 0, 300, 0, "", ""⟩] := by
  refine ⟨?_, ?_, ?_⟩
  · intro cuts dur tf l hl
    rw [create_scenes_from_timestamps] at hl
    split_ifs at hl
    have hl2 := Except.ok.inj hl
    rw [← hl2]
    exact pairScenes_chain _
  · intro cuts dur tf hd htf hrange l hl
    rw [create_scenes_from_timestamps, if_neg (by linarith), if_neg (by omega)] at hl
    have hl2 := Except.ok.inj hl
    have hperm := List.mergeSort_perm (dedupTsGo [] ((0, 0) :: cuts ++ [(dur, tf)]))
      (fun a b => decide (a.1 ≤ b.1))
    have hmem : ∀ x : ℚ × Int,
        x ∈ (dedupTsGo [] ((0, 0) :: cuts ++ [(dur, tf)])).mergeSort
          (fun a b => decide (a.1 ≤ b.1)) ↔ x ∈ (0, 0) :: cuts ++ [(dur, tf)] := by
      intro x
      rw [hperm.mem_iff, dedupTsGo_mem]
      simp
    have hsorted : List.Pairwise (fun a b : ℚ × Int => a.1 ≤ b.1)
        ((dedupTsGo [] ((0, 0) :: cuts ++ [(dur, tf)])).mergeSort
          (fun a b => decide (a.1 ≤ b.1))) := by
      have := @List.sorted_mergeSort (ℚ × Int)
        (fun a b : ℚ × Int => decide (a.1 ≤ b.1))
        (fun a b c hab hbc =>
          decide_eq_true (le_trans (of_decide_eq_true hab) (of_decide_eq_true hbc)))
        (fun a b => by
          rcases le_total a.1 b.1 with h | h
          · simp [h]
          · simp [h])
        (dedupTsGo [] ((0, 0) :: cuts ++ [(dur, tf)]))
      exact this.imp (fun h => of_decide_eq_true h)
    have hbound : ∀ x ∈ (dedupTsGo [] ((0, 0) :: cuts ++ [(dur, tf)])).mergeSort
        (fun a b => decide (a.1 ≤ b.1)), 0 ≤ x.1 ∧ x.1 ≤ dur := by
      intro x hx
      rcases List.mem_cons.mp ((hmem x).mp hx) with rfl | hx2
      · exact ⟨le_rfl, le_of_lt hd⟩
      · rcases List.mem_append.mp hx2 with hx3 | hx3
        · exact hrange x hx3
        · rcases List.mem_singleton.mp hx3 with rfl
          exact ⟨le_of_lt hd, le_rfl⟩
    have h0mem : ((0 : ℚ), (0 : Int)) ∈
        (dedupTsGo [] ((0, 0) :: cuts ++ [(dur, tf)])).mergeSort
          (fun a b => decide (a.1 ≤ b.1)) := (hmem _).mpr (List.mem_cons_self _ _)
    have hdmem : ((dur, tf)) ∈
        (dedupTsGo [] ((0, 0) :: cuts ++ [(dur, tf)])).mergeSort
          (fun a b => decide (a.1 ≤ b.1)) := by
      refine (hmem _).mpr (List.mem_cons_of_mem _ (List.mem_append.mpr (Or.inr ?_)))
      exact List.mem_singleton.mpr rfl
    rcases hss : (dedupTsGo [] ((0, 0) :: cuts ++ [(dur, tf)])).mergeSort
        (fun a b => decide (a.1 ≤ b.1)) with _ | ⟨s0, stail⟩
    · rw [hss] at h0mem
      simp at h0mem
    rcases stail with _ | ⟨s1, srest⟩
    · rw [hss] at h0mem hdmem
      have e0 : ((0 : ℚ), (0 : Int)) = s0 := List.mem_singleton.mp h0mem
      have ed : ((dur, tf)) = s0 := List.mem_singleton.mp hdmem
      rw [← e0] at ed
      simp only [Prod.mk.injEq] at ed
      linarith [ed.1]
    rw [hss] at hsorted hbound h0mem hdmem hl2
    have hs0le : ∀ x ∈ s0 :: s1 :: srest, s0.1 ≤ x.1 := by
      intro x hx
      rcases List.mem_cons.mp hx with rfl | hx2
      · exact le_rfl
      · exact (List.pairwise_cons.mp hsorted).1 x hx2
    have hs0 : s0.1 = 0 :=
      le_antisymm (hs0le _ h0mem) (hbound s0 (List.mem_cons_self _ _)).1
    have hlastle : ∀ x ∈ s0 :: s1 :: srest,
        x.1 ≤ (((s0 :: s1 :: srest).getLast?).map Prod.fst).getD 0 := by
      have hrev : List.Pairwise (fun a b : ℚ × Int => b.1 ≤ a.1)
          (s0 :: s1 :: srest).reverse := by
        rw [List.pairwise_reverse]
        exact hsorted
      intro x hx
      have hx2 : x ∈ (s0 :: s1 :: srest).reverse := List.mem_reverse.mpr hx
      rcases hrr : (s0 :: s1 :: srest).reverse with _ | ⟨r0, rtail⟩
      · rw [hrr] at hx2
        simp at hx2
      · have hget : (s0 :: s1 :: srest).getLast? = some r0 := by
          rw [← List.head?_reverse, hrr]
          rfl
        rw [hget]
        simp only [Option.map_some', Option.getD_some]
        rw [hrr] at hx2 hrev
        rcases List.mem_cons.mp hx2 with rfl | hx3
        · exact le_rfl
        · exact (List.pairwise_cons.mp hrev).1 x hx3
    have hlastmem : ∃ r, (s0 :: s1 :: srest).getLast? = some r ∧
        r ∈ s0 :: s1 :: srest := by
      rcases hrr : (s0 :: s1 :: srest).getLast? with _ | r
      · simp at hrr
      · exact ⟨r, rfl, List.mem_of_mem_getLast? hrr⟩
    obtain ⟨r, hr, hrmem⟩ := hlastmem
    have hrdur : r.1 = dur := by
      have h1 : dur ≤ r.1 := by
        have := hlastle _ hdmem
        rw [hr] at this
        simpa using this
      exact le_antisymm (hbound r hrmem).2 h1
    subst hl2
    have hhead : pairScenes (s0 :: s1 :: srest) =
        ⟨s0.1, s1.1, s0.2, s1.2, 0, "", ""⟩ :: pairScenes (s1 :: srest) := rfl
    rw [List.getLast?_cons_cons] at hr
    refine ⟨by rw [hhead]; exact List.cons_ne_nil _ _, ?_, ?_⟩
    · rw [hhead]
      simp [hs0]
    · rw [pairScenes_last, hr]
      simp [hrdur]
  · rw [create_scenes_from_timestamps, if_neg (by norm_num), if_neg (by norm_num)]
    norm_num [dedupTsGo, List.mergeSort, pairScenes]

/-- Witness for `create_scenes_from_timestamps_props`: one in-range cut
at `(5, 150)` in a 10-second, 300-frame video. -/
theorem create_scenes_from_timestamps_props_witness :
    [(⟨0, 5, 0, 150, 0, "", ""⟩ : Scene), ⟨5, 10, 150, 300, 0, "", ""⟩] ≠ [] ∧
    ([(⟨0, 5, 0, 150, 0, "", ""⟩ : Scene),
      ⟨5, 10, 150, 300, 0, "", ""⟩].head?).map Scene.start_time = some 0 ∧
    ([(⟨0, 5, 0, 150, 0, "", ""⟩ : Scene),
      ⟨5, 10, 150, 300, 0, "", ""⟩].getLast?).map Scene.end_time = some 10 :=
  (create_scenes_from_timestamps_props).2.1 [(5, 150)] 10 300 (by norm_num)
    (by norm_num) (by norm_num)
    [⟨0, 5, 0, 150, 0, "", ""⟩, ⟨5, 10, 150, 300, 0, "", ""⟩]
    (by norm_num [create_scenes_from_timestamps, dedupTsGo, List.mergeSort,
      pairScenes])

/-- Counterexample to C4 as stated: a cut with a negative timestamp is
kept as a boundary, so the first scene starts at `-1`, not at `0` — the
first-scene/last-scene endpoint property does not hold for arbitrary
cut lists. -/
theorem create_scenes_from_timestamps_cex :
    create_scenes_from_timestamps [(-1, 5)] 10 300 =
      .ok [⟨-1, 0, 5, 0, 0, "", ""⟩, ⟨0, 10, 0, 300, 0, "", ""⟩] ∧
    ([(⟨-1, 0, 5, 0, 0, "", ""⟩ : Scene),
      ⟨0, 10, 0, 300, 0, "", ""⟩].head?).map Scene.start_time ≠ some 0 := by
  constructor
  · rw [create_scenes_from_timestamps, if_neg (by norm_num), if_neg (by norm_num)]
    norm_num [dedupTsGo, List.mergeSort, pairScenes]
  · simp

/-- The deduplication walk keeps a sublist of its (sorted) input. -/
theorem dedupGo_sublist : ∀ (l : List ScoredCandidate)
    (seen : List (Int × Int)) (r : Nat), (dedupGo seen r l).Sublist l
  | [], _, _ => by simp [dedupGo]
  | c0 :: cs, seen, r => by
    rw [dedupGo]
    split_ifs with h1 h2 h3
    · exact (dedupGo_sublist cs seen r).cons _
    · exact (dedupGo_sublist cs seen r).cons _
    · exact (List.nil_sublist cs).cons₂ _
    · exact (dedupGo_sublist cs _ _).cons₂ _

/-- Every candidate kept by the deduplication walk has strictly positive
coordinates. -/
theorem dedupGo_pos : ∀ (l : List ScoredCandidate) (seen : List (Int × Int))
    (r : Nat) (c : ScoredCandidate), c ∈ dedupGo seen r l → 0 < c.x ∧ 0 < c.y
  | [], _, _, _, h => by simp [dedupGo] at h
  | c0 :: cs, seen, r, c, h => by
    rw [dedupGo] at h
    split_ifs at h with h1 h2 h3
    · exact dedupGo_pos cs seen r c h
    · exact dedupGo_pos cs seen r c h
    · rcases List.mem_singleton.mp h with rfl
      push_neg at h1
      exact h1
    · rcases List.mem_cons.mp h with rfl | h4
      · push_neg at h1
        exact h1
      · exact dedupGo_pos cs _ _ c h4

/-- The deduplication walk emits no key from `seen` and no key twice. -/
theorem dedupGo_keys : ∀ (l : List ScoredCandidate)
    (seen : List (Int × Int)) (r : Nat),
    (∀ c ∈ dedupGo seen r l, (c.x, c.y) ∉ seen) ∧
    (dedupGo seen r l).Pairwise (fun a b => (a.x, a.y) ≠ (b.x, b.y))
  | [], _, _ => by simp [dedupGo]
  | c0 :: cs, seen, r => by
    rw [dedupGo]
    split_ifs with h1 h2 h3
    · exact dedupGo_keys cs seen r
    · exact dedupGo_keys cs seen r
    · refine ⟨?_, List.pairwise_singleton _ _⟩
      intro c hc
      rcases List.mem_singleton.mp hc with rfl
      exact h2
    · obtain ⟨ihseen, ihpw⟩ := dedupGo_keys cs ((c0.x, c0.y) :: seen) (r - 1)
      constructor
      · intro c hc
        rcases List.mem_cons.mp hc with rfl | hc2
        · exact h2
        · exact fun hx => ihseen c hc2 (List.mem_cons_of_mem _ hx)
      · refine List.pairwise_cons.mpr ⟨?_, ihpw⟩
        intro b hb heq
        exact ihseen b hb (heq ▸ List.mem_cons_self _ _)

/-- The deduplication walk stops after at most `r` kept candidates. -/
theorem dedupGo_length : ∀ (l : List ScoredCandidate)
    (seen : List (Int × Int)) (r : Nat), 1 ≤ r → (dedupGo seen r l).length ≤ r
  | [], _, _, _ => by simp [dedupGo]
  | c0 :: cs, seen, r, hr => by
    rw [dedupGo]
    split_ifs with h1 h2 h3
    · exact dedupGo_length cs seen r hr
    · exact dedupGo_length cs seen r hr
    · simpa using hr
    · have h4 : 1 ≤ r - 1 := by omega
      have h5 := dedupGo_length cs ((c0.x, c0.y) :: seen) (r - 1) h4
      simp only [List.length_cons]
      omega

/-- Splitting a successful `Except` bind into its two stages. -/
theorem except_bind_ok {α β : Type} (e : Except String α)
    (f : α → Except String β) (b : β) (h : (e >>= f) = .ok b) :
    ∃ a, e = .ok a ∧ f a = .ok b := by
  cases e with
  | error s => simp [Bind.bind, Except.bind] at h
  | ok a => exact ⟨a, rfl, by simpa [Bind.bind, Except.bind] using h⟩

/-- C2: for `max_candidates ≥ 1`, any successful run of
`deduplicate_candidates` — and hence of `generate_candidates`, whose
last step it is — returns a list with pairwise distinct `(x, y)` keys,
only strictly positive coordinates, length at most `max_candidates`, and
scores sorted non-increasingly. -/
theorem deduplicate_and_generate_candidates_invariants :
    ∀ max_candidates : Int, 1 ≤ max_candidates →
      (∀ (cands l : List ScoredCandidate),
        deduplicate_candidates cands max_candidates = .ok l →
        l.Pairwise (fun a b => (a.x, a.y) ≠ (b.x, b.y)) ∧
        (∀ c ∈ l, 0 < c.x ∧ 0 < c.y) ∧
        (l.length : Int) ≤ max_candidates ∧
        l.Pairwise (fun a b => b.score ≤ a.score)) ∧
      (∀ (positions : List PositionMetrics) (bounds : NormalizationBounds)
        (vw vh tps : Int) (l : List ScoredCandidate),
        generate_candidates positions bounds vw vh max_candidates tps = .ok l →
        l.Pairwise (fun a b => (a.x, a.y) ≠ (b.x, b.y)) ∧
        (∀ c ∈ l, 0 < c.x ∧ 0 < c.y) ∧
        (l.length : Int) ≤ max_candidates ∧
        l.Pairwise (fun a b => b.score ≤ a.score)) := by
  intro mc hmc
  have hded : ∀ (cands l : List ScoredCandidate),
      deduplicate_candidates cands mc = .ok l →
      l.Pairwise (fun a b => (a.x, a.y) ≠ (b.x, b.y)) ∧
      (∀ c ∈ l, 0 < c.x ∧ 0 < c.y) ∧
      (l.length : Int) ≤ mc ∧
      l.Pairwise (fun a b => b.score ≤ a.score) := by
    intro cands l hl
    rw [deduplicate_candidates] at hl
    split_ifs at hl with hemp hlt
    · cases Except.ok.inj hl
      refine ⟨by simp, by simp, ?_, by simp⟩
      simp only [List.length_nil, Int.natCast_zero]
      omega
    · have hl2 := Except.ok.inj hl
      subst hl2
      have hsub := dedupGo_sublist (cands.mergeSort candScoreDesc) [] mc.toNat
      refine ⟨(dedupGo_keys _ _ _).2, fun c hc => dedupGo_pos _ _ _ c hc, ?_, ?_⟩
      · have h5 := dedupGo_length (cands.mergeSort candScoreDesc) [] mc.toNat
          (by omega)
        omega
      · have hsorted : (cands.mergeSort candScoreDesc).Pairwise
            (fun a b => b.score ≤ a.score) := by
          have h6 := @List.sorted_mergeSort ScoredCandidate candScoreDesc
            (fun a b c hab hbc =>
              decide_eq_true (le_trans (of_decide_eq_true hbc) (of_decide_eq_true hab)))
            (fun a b => by
              rcases le_total b.score a.score with h | h
              · simp [candScoreDesc, h]
              · simp [candScoreDesc, h])
            cands
          exact h6.imp (fun h => of_decide_eq_true h)
        exact hsorted.sublist hsub
  refine ⟨hded, ?_⟩
  intro positions bounds vw vh tps l hl
  rw [generate_candidates] at hl
  split_ifs at hl
  obtain ⟨sd, hsd, hl⟩ := except_bind_ok _ _ _ hl
  obtain ⟨mp, hmp, hl⟩ := except_bind_ok _ _ _ hl
  obtain ⟨vd, hvd, hl⟩ := except_bind_ok _ _ _ hl
  obtain ⟨ba, hba, hl⟩ := except_bind_ok _ _ _ hl
  obtain ⟨cf, hcf, hl⟩ := except_bind_ok _ _ _ hl
  obtain ⟨sp, hsp, hl⟩ := except_bind_ok _ _ _ hl
  exact hded _ l hl

/-- Witness for `deduplicate_and_generate_candidates_invariants`:
deduplicating four candidates (one at `x = 0`, two sharing position
`(1, 1)`) with `max_candidates = 3` keeps the two valid unique
positions, scores descending. -/
theorem deduplicate_and_generate_candidates_invariants_witness :
    ([⟨1, 1, 5, "A"⟩, ⟨2, 2, 4, "D"⟩] : List ScoredCandidate).Pairwise
      (fun a b => (a.x, a.y) ≠ (b.x, b.y)) ∧
    (∀ c ∈ ([⟨1, 1, 5, "A"⟩, ⟨2, 2, 4, "D"⟩] : List ScoredCandidate),
      0 < c.x ∧ 0 < c.y) ∧
    ((([⟨1, 1, 5, "A"⟩, ⟨2, 2, 4, "D"⟩] : List ScoredCandidate).length : Int) ≤ 3) ∧
    ([⟨1, 1, 5, "A"⟩, ⟨2, 2, 4, "D"⟩] : List ScoredCandidate).Pairwise
      (fun a b => b.score ≤ a.score) :=
  (deduplicate_and_generate_candidates_invariants 3 (by norm_num)).1
    [⟨1, 1, 5, "A"⟩, ⟨1, 1, 3, "B"⟩, ⟨0, 2, 9, "C"⟩, ⟨2, 2, 4, "D"⟩]
    [⟨1, 1, 5, "A"⟩, ⟨2, 2, 4, "D"⟩]
    (by
      rw [deduplicate_candidates, if_neg (by simp), if_neg (by norm_num)]
      norm_num [List.mergeSort, candScoreDesc, dedupGo])

end SmartCrop
